import Mathlib

/-!
Verification of the wire-format codec of `src/utils.js` (cursor-api).

The codec is embedded shallowly:

* bytes are `List Nat` (each element intended `< 256`, stated as hypotheses);
* JS/Node hexadecimal strings are `List Char`;
* `Buffer.prototype.toString('hex')`, `Buffer.from(s, 'hex')`,
  `Number.prototype.toString(16)`, `String.prototype.padStart(10, '0')` and
  `String.prototype.toUpperCase()` are modelled character by character;
* the externals that `utils.js` merely calls — `ResMessage.decode` and
  `ChatMessage.verify`/`ChatMessage.encode` from `message.js`, and
  `zlib.gunzip` — are parameters of the embedded functions (`decode`,
  `verify`, `pbEncode`, `inflate`); a decode/inflate value of `none` models
  the callback erroring / the decoder throwing.
-/

/-! ### Hexadecimal characters -/

/-- The lowercase hexadecimal digit characters used by `Number.prototype.toString(16)`
and `Buffer.prototype.toString('hex')` (codepoints 48–57 and 97–102). -/
def hexDigitChar (n : Nat) : Char :=
  if n < 10 then Char.ofNat (48 + n) else Char.ofNat (87 + n)

/-- Uppercase hexadecimal digit characters (codepoints 48–57 and 65–70). -/
def hexDigitCharU (n : Nat) : Char :=
  if n < 10 then Char.ofNat (48 + n) else Char.ofNat (55 + n)

/-- A character accepted as a hexadecimal digit by `parseInt(·, 16)` and
`Buffer.from(·, 'hex')`: `0-9`, `a-f` or `A-F`. -/
def isHexDigitChar (c : Char) : Bool :=
  (48 ≤ c.toNat && c.toNat ≤ 57) || (97 ≤ c.toNat && c.toNat ≤ 102) ||
    (65 ≤ c.toNat && c.toNat ≤ 70)

/-- Numeric value of a hexadecimal digit character (both cases); junk value 0
on non-digits, which every use below excludes via `isHexDigitChar`. -/
def hexCharVal (c : Char) : Nat :=
  if 48 ≤ c.toNat && c.toNat ≤ 57 then c.toNat - 48
  else if 97 ≤ c.toNat && c.toNat ≤ 102 then c.toNat - 87
  else if 65 ≤ c.toNat && c.toNat ≤ 70 then c.toNat - 55
  else 0

/-! ### Byte sequences and hexadecimal text -/

/-- `Buffer.prototype.toString('hex')`: each byte becomes two lowercase hex digits. -/
def bytesToHexL : List Nat → List Char
  | [] => []
  | b :: bs => hexDigitChar (b / 16) :: hexDigitChar (b % 16) :: bytesToHexL bs

/-- Uppercase hexadecimal rendering of a byte sequence. -/
def bytesToHexU : List Nat → List Char
  | [] => []
  | b :: bs => hexDigitCharU (b / 16) :: hexDigitCharU (b % 16) :: bytesToHexU bs

/-- `Buffer.from(s, 'hex')`: decodes consecutive digit pairs, truncating at the
first character pair that is not two hexadecimal digits (Node semantics). -/
def hexToBytes : List Char → List Nat
  | c1 :: c2 :: rest =>
    if isHexDigitChar c1 && isHexDigitChar c2 then
      (16 * hexCharVal c1 + hexCharVal c2) :: hexToBytes rest
    else []
  | _ => []

/-- Digits of `n.toString(16)` without the `n = 0` special case (empty for 0). -/
def natHexDigits : Nat → List Char
  | 0 => []
  | n + 1 => natHexDigits ((n + 1) / 16) ++ [hexDigitChar ((n + 1) % 16)]
decreasing_by exact Nat.div_lt_self (Nat.succ_pos n) (by omega)

/-- `Number.prototype.toString(16)` (lowercase, `"0"` for zero). -/
def natToHexChars (n : Nat) : List Char := if n = 0 then ['0'] else natHexDigits n

/-- Uppercase variant of `natHexDigits`. -/
def natHexDigitsU : Nat → List Char
  | 0 => []
  | n + 1 => natHexDigitsU ((n + 1) / 16) ++ [hexDigitCharU ((n + 1) % 16)]
decreasing_by exact Nat.div_lt_self (Nat.succ_pos n) (by omega)

/-- Uppercase hexadecimal rendering of a natural number (`"0"` for zero). -/
def natToHexCharsU (n : Nat) : List Char := if n = 0 then ['0'] else natHexDigitsU n

/-- `String.prototype.padStart(k, '0')`. -/
def padStartZeros (k : Nat) (cs : List Char) : List Char :=
  List.replicate (k - cs.length) '0' ++ cs

/-- `String.prototype.toUpperCase()` on one character; all characters this
development applies it to are ASCII, where uppercasing subtracts 32 from
lowercase letters. -/
def charUpper (c : Char) : Char :=
  if 97 ≤ c.toNat && c.toNat ≤ 122 then Char.ofNat (c.toNat - 32) else c

/-- `String.prototype.toUpperCase()`. -/
def listUpper (cs : List Char) : List Char := cs.map charUpper

/-! ### The frame-encoding step of `stringToHex` (utils.js lines 55–58)

```js
const hexString = (buffer.length.toString(16).padStart(10, '0')
                   + buffer.toString('hex')).toUpperCase();
return Buffer.from(hexString, 'hex');
``` -/

/-- The frame-encoding step of serialization: utils.js lines 55–58 as a function
of the schema-encoded payload buffer. -/
def frameEncode (payload : List Nat) : List Nat :=
  hexToBytes (listUpper (padStartZeros 10 (natToHexChars payload.length) ++
    bytesToHexL payload))

/-- The hexadecimal string described by the specification: the 10-character
zero-left-padded uppercase hexadecimal rendering of the byte length of the
payload, concatenated with the uppercase hexadecimal rendering of its bytes. -/
def specFrameString (payload : List Nat) : List Char :=
  padStartZeros 10 (natToHexCharsU payload.length) ++ bytesToHexU payload

/-! ### Basic lemmas about the hex machinery -/

theorem charUpper_hexDigitChar {d : Nat} (h : d < 16) :
    charUpper (hexDigitChar d) = hexDigitCharU d := by
  interval_cases d <;> decide

theorem charUpper_zeroChar : charUpper '0' = '0' := by decide

theorem listUpper_append (xs ys : List Char) :
    listUpper (xs ++ ys) = listUpper xs ++ listUpper ys := by
  simp [listUpper]

theorem listUpper_replicate_zero (m : Nat) :
    listUpper (List.replicate m '0') = List.replicate m '0' := by
  simp [listUpper, List.map_replicate, charUpper_zeroChar]

theorem listUpper_natHexDigits (n : Nat) :
    listUpper (natHexDigits n) = natHexDigitsU n := by
  induction n using natHexDigits.induct with
  | case1 => simp [natHexDigits, natHexDigitsU, listUpper]
  | case2 n ih =>
    rw [natHexDigits, natHexDigitsU, listUpper_append, ih]
    simp [listUpper, charUpper_hexDigitChar (Nat.mod_lt _ (by omega))]

theorem listUpper_natToHexChars (n : Nat) :
    listUpper (natToHexChars n) = natToHexCharsU n := by
  by_cases h : n = 0
  · subst h; decide
  · simp only [natToHexChars, natToHexCharsU, if_neg h, listUpper_natHexDigits]

theorem listUpper_bytesToHexL {bs : List Nat} (h : ∀ b ∈ bs, b < 256) :
    listUpper (bytesToHexL bs) = bytesToHexU bs := by
  induction bs with
  | nil => rfl
  | cons b bs ih =>
    have hb : b < 256 := h b (by simp)
    have h1 : b / 16 < 16 := by omega
    have h2 : b % 16 < 16 := by omega
    simp only [bytesToHexL, bytesToHexU, listUpper, List.map_cons]
    rw [show charUpper (hexDigitChar (b / 16)) = hexDigitCharU (b / 16) from
      charUpper_hexDigitChar h1,
      show charUpper (hexDigitChar (b % 16)) = hexDigitCharU (b % 16) from
      charUpper_hexDigitChar h2]
    exact congrArg _ (congrArg _ (ih (fun x hx => h x (by simp [hx]))))

theorem listUpper_padStartZeros (k : Nat) (cs : List Char) :
    listUpper (padStartZeros k cs) = padStartZeros k (listUpper cs) := by
  simp only [padStartZeros, listUpper, List.map_append, List.map_replicate,
    charUpper_zeroChar, List.length_map]

/-! ### Claim C1 -/

/-- Claim C1: for every payload `p` (a byte sequence with length `< 16^10`),
the frame-encoding step of serialization (utils.js lines 55–58) produces
exactly the raw bytes obtained by interpreting as hexadecimal the string formed
by the 10-character zero-left-padded uppercase hexadecimal rendering of the
byte length of `p` concatenated with the uppercase hexadecimal rendering of
the bytes of `p`. -/
theorem c1_frame_encoding (p : List Nat) (hbytes : ∀ b ∈ p, b < 256)
    (_hlen : p.length < 16 ^ 10) :
    frameEncode p = hexToBytes (specFrameString p) := by
  unfold frameEncode specFrameString
  rw [listUpper_append, listUpper_padStartZeros, listUpper_natToHexChars,
    listUpper_bytesToHexL hbytes]

/-- Witness for C1 at the example payload from the spec, the two bytes of
`hi` = `[0x68, 0x69]`. -/
theorem c1_frame_encoding_witness :
    frameEncode [104, 105] = hexToBytes (specFrameString [104, 105]) :=
  c1_frame_encoding [104, 105] (by decide) (by norm_num)

/-! ### Big-endian values and length prefixes

The 10 hex characters of a frame length prefix are the hexadecimal rendering
of 5 bytes; reading them with `parseInt(·, 16)` yields the big-endian value
of those bytes. -/

/-- Big-endian value of a byte sequence. -/
def beVal (bs : List Nat) : Nat := bs.foldl (fun a b => 256 * a + b) 0

/-- The `k`-byte big-endian encoding of `v % 256 ^ k`. -/
def bytesOfBE : Nat → Nat → List Nat
  | 0, _ => []
  | k + 1, v => bytesOfBE k (v / 256) ++ [v % 256]

/-- The 5 bytes whose hexadecimal rendering is the 10-character length prefix
declaring `n`. -/
def lenBytes5 (n : Nat) : List Nat := bytesOfBE 5 n

/-- A complete frame: a length prefix of 10 hex characters (5 bytes) declaring
the payload byte count, immediately followed by the payload bytes. -/
def mkFrame (p : List Nat) : List Nat := lenBytes5 p.length ++ p

/-! ### The stream parser (utils.js lines 66–106) -/

/-- `parseInt(s, 16)` for the strings this file applies it to: the value of the
maximal leading run of hexadecimal digit characters, `none` for NaN when there
is no such digit. (The whitespace / sign / `0x` handling of `parseInt` is
omitted: every call site below passes a slice of `Buffer.toString('hex')`
output, which consists of lowercase hexadecimal digits only.) -/
def parseIntHex (cs : List Char) : Option Nat :=
  let ds := cs.takeWhile isHexDigitChar
  if ds.isEmpty then none
  else some (ds.foldl (fun a c => 16 * a + hexCharVal c) 0)

/-- The `while` loop of `chunkToUtf8String` (utils.js lines 75–94), operating
on the not-yet-consumed suffix of the hex string. `decode` stands for
`$root.ResMessage.decode` followed by the `.msg` projection (from the absent
`message.js`); `decode _ = none` models a decoder throw, which the `catch` of
`chunkToUtf8String` turns into the fallback, so the loop result is an
`Option`: `none` means the decoder threw.

On `parseIntHex _ = none`, `parseInt` in JS yields NaN: then
`offset + NaN * 2 > hex.length` is false, `hex.slice(offset, offset + NaN)`
is the empty string, the decoder runs on the empty buffer, and `offset`
becomes NaN, which ends the loop. This branch is unreachable from
`chunkToUtf8String` (the hex string is all lowercase hex digits) but is kept
faithful. -/
def parseLoop (decode : List Nat → Option String) (rest : List Char)
    (acc : List String) : Option (List String) :=
  if _h10 : rest.length < 10 then some acc
    else
      match parseIntHex (rest.take 10) with
      | none =>
        match decode [] with
        | none => none
        | some s => some (acc ++ [s])
      | some dataLength =>
        if _hdl : (rest.drop 10).length < dataLength * 2 then some acc
        else
          match decode (hexToBytes ((rest.drop 10).take (dataLength * 2))) with
          | none => none
          | some s => parseLoop decode ((rest.drop 10).drop (dataLength * 2)) (acc ++ [s])
termination_by rest.length
decreasing_by simp only [List.length_drop] at *; omega

/-- The frame boundaries the loop traverses, independent of decoding: the
sequence of payload byte buffers handed to the decoder, in frame order.
The branches mirror `parseLoop` exactly. -/
def splitFrames (rest : List Char) : List (List Nat) :=
  if _h10 : rest.length < 10 then []
    else
      match parseIntHex (rest.take 10) with
      | none => [[]]
      | some dataLength =>
        if _hdl : (rest.drop 10).length < dataLength * 2 then []
        else
          hexToBytes ((rest.drop 10).take (dataLength * 2)) ::
            splitFrames ((rest.drop 10).drop (dataLength * 2))
termination_by rest.length
decreasing_by simp only [List.length_drop] at *; omega

/-- Decode every extracted payload in order; `none` as soon as one decode
throws. -/
def decodeAll (decode : List Nat → Option String) : List (List Nat) → Option (List String)
  | [] => some []
  | p :: ps =>
    match decode p with
    | none => none
    | some s => (decodeAll decode ps).map (fun ss => s :: ss)

/-! ### The compression fallback `gunzip` (utils.js lines 113–132) -/

/-- `listStartsWith pat s` holds when `pat` is an initial segment of `s`. -/
def listStartsWith : List Char → List Char → Bool
  | [], _ => true
  | _ :: _, [] => false
  | p :: ps, c :: cs => p == c && listStartsWith ps cs

/-- Position just after the first occurrence of `pat` in `s`: the suffix of
`s` following the earliest match, `none` when `pat` does not occur. -/
def dropAfterFirst (pat : List Char) (s : List Char) : Option (List Char) :=
  if listStartsWith pat s then some (s.drop pat.length)
  else
    match s with
    | [] => none
    | _ :: cs => dropAfterFirst pat cs
termination_by s.length

def beginSystemChars : List Char := "<|BEGIN_SYSTEM|>".data

def endSystemChars : List Char := "<|END_SYSTEM|>".data

def beginUserChars : List Char := "<|BEGIN_USER|>".data

def endUserChars : List Char := "<|END_USER|>".data

/-- utils.js line 10: the dot-all regular expression
`<\|BEGIN_SYSTEM\|>.*?<\|END_SYSTEM\|>.*?<\|BEGIN_USER\|>.*?<\|END_USER\|>`
under `.test`: the text contains the four delimiters in this order, with
arbitrary characters (including newlines) between them. -/
def sentinelTest (t : String) : Bool :=
  (Option.bind (Option.bind (Option.bind (dropAfterFirst beginSystemChars t.data)
    (dropAfterFirst endSystemChars)) (dropAfterFirst beginUserChars))
    (dropAfterFirst endUserChars)).isSome

/-- `gunzip` (utils.js lines 113–132). `inflate` stands for the external
`zlib.gunzip` composed with `Buffer.prototype.toString('utf-8')`; `none`
models the error callback. The promise always resolves (never rejects), so
the model is a total function into `String`. -/
def gunzip (inflate : List Nat → Option String) (chunk : List Nat) : String :=
  match inflate (chunk.drop 5) with
  | none => ""
  | some text => if sentinelTest text then "" else text

/-! ### `chunkToUtf8String` (utils.js lines 66–106) -/

/-- The frame-extraction part of `chunkToUtf8String`: hex-render the chunk and
run the parsing loop from offset 0 with an empty accumulator. -/
def parseResult (decode : List Nat → Option String) (chunk : List Nat) :
    Option (List String) :=
  parseLoop decode (bytesToHexL chunk) []

/-- `chunkToUtf8String` (utils.js lines 66–106): on a decoder throw (`none`,
the `catch` branch) or zero accumulated results, fall back to `gunzip` on the
original chunk; otherwise join the decoded pieces. -/
def chunkToUtf8String (decode : List Nat → Option String)
    (inflate : List Nat → Option String) (chunk : List Nat) : String :=
  match parseResult decode chunk with
  | none => gunzip inflate chunk
  | some results => if results.isEmpty then gunzip inflate chunk else String.join results

/-! ### Hex round-trip lemmas -/

theorem bytesToHexL_length (bs : List Nat) : (bytesToHexL bs).length = 2 * bs.length := by
  induction bs with
  | nil => rfl
  | cons b bs ih => simp [bytesToHexL, ih]; omega

theorem bytesToHexL_append (xs ys : List Nat) :
    bytesToHexL (xs ++ ys) = bytesToHexL xs ++ bytesToHexL ys := by
  induction xs with
  | nil => rfl
  | cons b xs ih => simp [bytesToHexL, ih]

theorem isHexDigitChar_hexDigitChar {d : Nat} (h : d < 16) :
    isHexDigitChar (hexDigitChar d) = true := by
  interval_cases d <;> decide

theorem hexCharVal_hexDigitChar {d : Nat} (h : d < 16) :
    hexCharVal (hexDigitChar d) = d := by
  interval_cases d <;> decide

theorem isHexDigitChar_hexDigitCharU {d : Nat} (h : d < 16) :
    isHexDigitChar (hexDigitCharU d) = true := by
  interval_cases d <;> decide

theorem hexCharVal_hexDigitCharU {d : Nat} (h : d < 16) :
    hexCharVal (hexDigitCharU d) = d := by
  interval_cases d <;> decide

theorem mem_bytesToHexL_isHex {bs : List Nat} (h : ∀ b ∈ bs, b < 256) :
    ∀ c ∈ bytesToHexL bs, isHexDigitChar c = true := by
  induction bs with
  | nil => intro c hc; simp [bytesToHexL] at hc
  | cons b bs ih =>
    intro c hc
    have hb : b < 256 := h b (by simp)
    simp only [bytesToHexL, List.mem_cons] at hc
    rcases hc with rfl | hc
    · exact isHexDigitChar_hexDigitChar (by omega)
    rcases hc with rfl | hc
    · exact isHexDigitChar_hexDigitChar (by omega)
    · exact ih (fun x hx => h x (by simp [hx])) c hc

theorem hexToBytes_bytesToHexL {bs : List Nat} (h : ∀ b ∈ bs, b < 256) :
    hexToBytes (bytesToHexL bs) = bs := by
  induction bs with
  | nil => rfl
  | cons b bs ih =>
    have hb : b < 256 := h b (by simp)
    simp only [bytesToHexL, hexToBytes,
      isHexDigitChar_hexDigitChar (show b / 16 < 16 by omega),
      isHexDigitChar_hexDigitChar (show b % 16 < 16 by omega),
      hexCharVal_hexDigitChar (show b / 16 < 16 by omega),
      hexCharVal_hexDigitChar (show b % 16 < 16 by omega), Bool.and_self, if_true]
    rw [ih (fun x hx => h x (by simp [hx]))]
    congr 1
    omega

theorem hexToBytes_bytesToHexU {bs : List Nat} (h : ∀ b ∈ bs, b < 256) :
    hexToBytes (bytesToHexU bs) = bs := by
  induction bs with
  | nil => rfl
  | cons b bs ih =>
    have hb : b < 256 := h b (by simp)
    simp only [bytesToHexU, hexToBytes,
      isHexDigitChar_hexDigitCharU (show b / 16 < 16 by omega),
      isHexDigitChar_hexDigitCharU (show b % 16 < 16 by omega),
      hexCharVal_hexDigitCharU (show b / 16 < 16 by omega),
      hexCharVal_hexDigitCharU (show b % 16 < 16 by omega), Bool.and_self, if_true]
    rw [ih (fun x hx => h x (by simp [hx]))]
    congr 1
    omega

/-! ### Reading the length prefix -/

theorem foldl16_bytesToHexL {bs : List Nat} (h : ∀ b ∈ bs, b < 256) (a : Nat) :
    (bytesToHexL bs).foldl (fun a c => 16 * a + hexCharVal c) a =
      bs.foldl (fun a b => 256 * a + b) a := by
  induction bs generalizing a with
  | nil => rfl
  | cons b bs ih =>
    have hb : b < 256 := h b (by simp)
    simp only [bytesToHexL, List.foldl_cons,
      hexCharVal_hexDigitChar (show b / 16 < 16 by omega),
      hexCharVal_hexDigitChar (show b % 16 < 16 by omega)]
    have harith : 16 * (16 * a + b / 16) + b % 16 = 256 * a + b := by omega
    rw [harith, ih (fun x hx => h x (by simp [hx]))]

theorem parseIntHex_bytesToHexL {bs : List Nat} (hne : bs ≠ [])
    (h : ∀ b ∈ bs, b < 256) :
    parseIntHex (bytesToHexL bs) = some (beVal bs) := by
  unfold parseIntHex
  rw [List.takeWhile_eq_self_iff.mpr (by simpa using mem_bytesToHexL_isHex h)]
  have hne' : bytesToHexL bs ≠ [] := by
    cases bs with
    | nil => exact absurd rfl hne
    | cons b bs => simp [bytesToHexL]
  simp only [List.isEmpty_iff, hne', if_false, beVal, foldl16_bytesToHexL h]

theorem bytesOfBE_lt (k v : Nat) : ∀ b ∈ bytesOfBE k v, b < 256 := by
  induction k generalizing v with
  | zero => intro b hb; simp [bytesOfBE] at hb
  | succ k ih =>
    intro b hb
    simp only [bytesOfBE, List.mem_append, List.mem_singleton] at hb
    rcases hb with hb | rfl
    · exact ih _ b hb
    · omega

theorem bytesOfBE_length (k v : Nat) : (bytesOfBE k v).length = k := by
  induction k generalizing v with
  | zero => rfl
  | succ k ih => simp [bytesOfBE, ih]

theorem lenBytes5_expand (n : Nat) :
    lenBytes5 n = [n / 2 ^ 32 % 256, n / 2 ^ 24 % 256, n / 2 ^ 16 % 256,
      n / 2 ^ 8 % 256, n % 256] := by
  show bytesOfBE 5 n = _
  have h4 : ∀ v, bytesOfBE 4 v = [v / 2 ^ 24 % 256, v / 2 ^ 16 % 256,
      v / 2 ^ 8 % 256, v % 256] := by
    intro v
    show bytesOfBE 3 (v / 256) ++ [v % 256] = _
    show (bytesOfBE 2 (v / 256 / 256) ++ [v / 256 % 256]) ++ [v % 256] = _
    show ((bytesOfBE 1 (v / 256 / 256 / 256) ++ [v / 256 / 256 % 256]) ++
      [v / 256 % 256]) ++ [v % 256] = _
    show ((([] ++ [v / 256 / 256 / 256 % 256] : List Nat) ++ [v / 256 / 256 % 256]) ++
      [v / 256 % 256]) ++ [v % 256] = _
    simp only [List.nil_append, List.cons_append, List.append_assoc, List.singleton_append]
    norm_num [Nat.div_div_eq_div_mul]
  show bytesOfBE 4 (n / 256) ++ [n % 256] = _
  rw [h4]
  norm_num [Nat.div_div_eq_div_mul]

theorem beVal_lenBytes5 {n : Nat} (h : n < 2 ^ 40) : beVal (lenBytes5 n) = n := by
  rw [lenBytes5_expand]
  show 256 * (256 * (256 * (256 * (256 * 0 + n / 2 ^ 32 % 256) + n / 2 ^ 24 % 256) +
    n / 2 ^ 16 % 256) + n / 2 ^ 8 % 256) + n % 256 = n
  omega

theorem lenBytes5_ne_nil (n : Nat) : lenBytes5 n ≠ [] := by
  rw [lenBytes5_expand]; simp

/-! ### Splitting a chunk into frames -/

theorem splitFrames_nil : splitFrames [] = [] := by
  rw [splitFrames]
  rfl

theorem splitFrames_short {cs : List Char} (h : cs.length < 10) : splitFrames cs = [] := by
  rw [splitFrames, dif_pos h]

theorem splitFrames_header_cons (H : List Char) (p : List Nat) (tl : List Char)
    (hH : H.length = 10) (hpi : parseIntHex H = some p.length)
    (hb : ∀ b ∈ p, b < 256) :
    splitFrames (H ++ (bytesToHexL p ++ tl)) = p :: splitFrames tl := by
  rw [splitFrames]
  have hlong : ¬ (H ++ (bytesToHexL p ++ tl)).length < 10 := by
    simp only [List.length_append, hH]
    omega
  rw [dif_neg hlong]
  have htake : (H ++ (bytesToHexL p ++ tl)).take 10 = H := by
    rw [← hH, List.take_left]
  have hdrop : (H ++ (bytesToHexL p ++ tl)).drop 10 = bytesToHexL p ++ tl := by
    rw [← hH, List.drop_left]
  rw [htake, hpi]
  simp only [hdrop]
  have hplen : (bytesToHexL p).length = 2 * p.length := bytesToHexL_length p
  have hnotshort : ¬ (bytesToHexL p ++ tl).length < p.length * 2 := by
    simp only [List.length_append, hplen]
    omega
  rw [dif_neg hnotshort]
  have htake2 : (bytesToHexL p ++ tl).take (p.length * 2) = bytesToHexL p := by
    rw [show p.length * 2 = (bytesToHexL p).length by omega, List.take_left]
  have hdrop2 : (bytesToHexL p ++ tl).drop (p.length * 2) = tl := by
    rw [show p.length * 2 = (bytesToHexL p).length by omega, List.drop_left]
  rw [htake2, hdrop2, hexToBytes_bytesToHexL hb]

theorem splitFrames_frame_cons (p : List Nat) (tl : List Char)
    (hb : ∀ b ∈ p, b < 256) (hl : p.length < 2 ^ 40) :
    splitFrames (bytesToHexL (mkFrame p) ++ tl) = p :: splitFrames tl := by
  have hsplit : bytesToHexL (mkFrame p) ++ tl =
      bytesToHexL (lenBytes5 p.length) ++ (bytesToHexL p ++ tl) := by
    rw [mkFrame, bytesToHexL_append, List.append_assoc]
  rw [hsplit]
  refine splitFrames_header_cons _ p tl ?_ ?_ hb
  · rw [bytesToHexL_length, lenBytes5, bytesOfBE_length]
  · rw [parseIntHex_bytesToHexL (lenBytes5_ne_nil _) (bytesOfBE_lt 5 p.length),
      beVal_lenBytes5 hl]

theorem splitFrames_flatten (ps : List (List Nat))
    (hb : ∀ p ∈ ps, ∀ b ∈ p, b < 256) (hl : ∀ p ∈ ps, p.length < 2 ^ 40) :
    splitFrames (bytesToHexL ((ps.map mkFrame).flatten)) = ps := by
  induction ps with
  | nil => simpa [bytesToHexL] using splitFrames_nil
  | cons p ps ih =>
    simp only [List.map_cons, List.flatten_cons, bytesToHexL_append]
    rw [splitFrames_frame_cons p _ (hb p (by simp)) (hl p (by simp))]
    rw [ih (fun q hq => hb q (by simp [hq])) (fun q hq => hl q (by simp [hq]))]

/-! ### The loop as frame extraction plus decoding -/

theorem parseLoop_eq_decodeAll (decode : List Nat → Option String) (rest : List Char)
    (acc : List String) :
    parseLoop decode rest acc =
      (decodeAll decode (splitFrames rest)).map (fun ss => acc ++ ss) := by
  induction rest, acc using parseLoop.induct decode with
  | case1 rest acc h =>
    rw [parseLoop, dif_pos h, splitFrames, dif_pos h]
    simp [decodeAll]
  | case2 rest acc h hpi hdec =>
    rw [parseLoop, splitFrames]
    simp [dif_neg h, hpi, hdec, decodeAll]
  | case3 rest acc h hpi s hdec =>
    rw [parseLoop, splitFrames]
    simp [dif_neg h, hpi, hdec, decodeAll]
  | case4 rest acc h dataLength hpi hdl =>
    rw [parseLoop, splitFrames]
    simp only [List.length_drop] at hdl
    simp [dif_neg h, hpi, hdl, decodeAll]
  | case5 rest acc h dataLength hpi hdl hdec =>
    rw [parseLoop, splitFrames]
    simp only [List.length_drop] at hdl
    simp [dif_neg h, hpi, hdl, hdec, decodeAll]
  | case6 rest acc h dataLength hpi hdl s hdec ih =>
    rw [parseLoop, splitFrames]
    simp only [dif_neg h, hpi, dif_neg hdl, hdec, decodeAll, ih]
    cases decodeAll decode (splitFrames ((rest.drop 10).drop (dataLength * 2))) with
    | none => rfl
    | some ss => simp

theorem parseResult_eq (decode : List Nat → Option String) (chunk : List Nat) :
    parseResult decode chunk = decodeAll decode (splitFrames (bytesToHexL chunk)) := by
  rw [parseResult, parseLoop_eq_decodeAll]
  cases decodeAll decode (splitFrames (bytesToHexL chunk)) <;> simp

theorem decodeAll_none_iff (decode : List Nat → Option String) (ps : List (List Nat)) :
    decodeAll decode ps = none ↔ ∃ p ∈ ps, decode p = none := by
  induction ps with
  | nil => simp [decodeAll]
  | cons p ps ih =>
    cases hdp : decode p with
    | none => simp [decodeAll, hdp]
    | some s => simp [decodeAll, hdp, ih]

theorem decodeAll_length (decode : List Nat → Option String) (ps : List (List Nat))
    (ss : List String) (h : decodeAll decode ps = some ss) : ss.length = ps.length := by
  induction ps generalizing ss with
  | nil => simp [decodeAll] at h; simp [← h]
  | cons p ps ih =>
    simp only [decodeAll] at h
    cases hdp : decode p with
    | none => rw [hdp] at h; exact absurd h (by simp)
    | some s =>
      rw [hdp] at h
      cases hda : decodeAll decode ps with
      | none => rw [hda] at h; exact absurd h (by simp)
      | some ss' =>
        rw [hda] at h
        simp only [Option.map_some', Option.some.injEq] at h
        simp [← h, ih ss' hda]

/-! ### Claim C2 -/

/-- Claim C2: for every chunk whose bytes are exactly the concatenation of `N`
complete frames (each a 10-hex-character length prefix followed by exactly
that many payload bytes) with no trailing partial bytes, and whose every
payload decodes without error, Parse extracts exactly `N` decoded text pieces
in frame order, and the value returned to the caller equals their
concatenation. (The hypothesis `inflate [] = none` records that the real
`zlib.gunzip` errors on an empty input, which is what the `N = 0` chunk
reaches.) -/
theorem c2_complete_frames (decode inflate : List Nat → Option String)
    (ps : List (List Nat)) (ss : List String)
    (hb : ∀ p ∈ ps, ∀ b ∈ p, b < 256) (hl : ∀ p ∈ ps, p.length < 2 ^ 40)
    (hdec : decodeAll decode ps = some ss) (hinf : inflate [] = none) :
    parseResult decode ((ps.map mkFrame).flatten) = some ss ∧
    ss.length = ps.length ∧
    chunkToUtf8String decode inflate ((ps.map mkFrame).flatten) = String.join ss := by
  have hres : parseResult decode ((ps.map mkFrame).flatten) = some ss := by
    rw [parseResult_eq, splitFrames_flatten ps hb hl, hdec]
  refine ⟨hres, decodeAll_length decode ps ss hdec, ?_⟩
  simp only [chunkToUtf8String, hres]
  by_cases hss : ss = []
  · subst hss
    have hps : ps = [] := by
      have := decodeAll_length decode ps [] hdec
      simpa [List.length_eq_zero] using this.symm
    subst hps
    simp [gunzip, hinf, String.join]
  · simp [List.isEmpty_iff, hss]

/-- Witness for C2: one frame carrying the payload `hi`, a decoder accepting
exactly it, and an inflate that fails on everything. -/
theorem c2_complete_frames_witness :
    parseResult (fun bs => if bs = [104, 105] then some ("hi") else none)
        (([[104, 105]].map mkFrame).flatten) = some (["hi"]) ∧
    (["hi"] : List String).length = [[104, 105]].length ∧
    chunkToUtf8String (fun bs => if bs = [104, 105] then some ("hi") else none)
        (fun _ => none) (([[104, 105]].map mkFrame).flatten) = String.join ["hi"] :=
  c2_complete_frames _ _ _ _ (by decide) (by decide) (by decide) rfl

/-! ### Claim C3 -/

/-- Claim C3: `chunkToUtf8String` is a total function (the embedding of the
try/catch makes a decoder throw a `none` branch, never an exception), and
whenever a decode error occurs on any extracted frame, or zero frames are
accumulated, the fallback `gunzip` is invoked on the original, unmodified
chunk — no partial frame results are returned in either case. -/
theorem c3_error_or_empty_fallback (decode inflate : List Nat → Option String)
    (chunk : List Nat) :
    ((∃ p ∈ splitFrames (bytesToHexL chunk), decode p = none) →
      chunkToUtf8String decode inflate chunk = gunzip inflate chunk) ∧
    (splitFrames (bytesToHexL chunk) = [] →
      chunkToUtf8String decode inflate chunk = gunzip inflate chunk) := by
  constructor
  · intro hex
    have hres : parseResult decode chunk = none := by
      rw [parseResult_eq, decodeAll_none_iff]
      exact hex
    simp [chunkToUtf8String, hres]
  · intro hempty
    have hres : parseResult decode chunk = some [] := by
      rw [parseResult_eq, hempty]
      rfl
    simp [chunkToUtf8String, hres]

/-- Witness for C3: one frame whose payload the decoder rejects; the result is
the fallback on the original chunk. -/
theorem c3_error_or_empty_fallback_witness :
    chunkToUtf8String (fun _ => none) (fun _ => some ("fb")) (mkFrame []) =
      gunzip (fun _ => some ("fb")) (mkFrame []) :=
  (c3_error_or_empty_fallback _ _ (mkFrame [])).1
    ⟨[], by
      have h := splitFrames_frame_cons [] [] (by simp) (by norm_num)
      simp only [List.append_nil] at h
      simp [h], rfl⟩

/-! ### Claim C7 -/

/-- Claim C7: for every chunk consisting of one complete, decodable frame
followed by a truncated second length prefix (fewer than 10 hex characters of
data remaining, i.e. fewer than 5 trailing bytes), Parse extracts exactly one
decoded text piece, from the first frame, and does not throw; the trailing
partial data is discarded. -/
theorem c7_partial_second_prefix (decode inflate : List Nat → Option String)
    (p t : List Nat) (s : String)
    (hb : ∀ b ∈ p, b < 256) (hl : p.length < 2 ^ 40)
    (hdec : decode p = some s) (ht : t.length < 5) :
    parseResult decode (mkFrame p ++ t) = some [s] ∧
    chunkToUtf8String decode inflate (mkFrame p ++ t) = s := by
  have hsplit : splitFrames (bytesToHexL (mkFrame p ++ t)) = [p] := by
    rw [bytesToHexL_append, splitFrames_frame_cons p _ hb hl, splitFrames_short]
    rw [bytesToHexL_length]
    omega
  have hres : parseResult decode (mkFrame p ++ t) = some [s] := by
    rw [parseResult_eq, hsplit]
    simp [decodeAll, hdec]
  refine ⟨hres, ?_⟩
  simp [chunkToUtf8String, hres, String.join]

/-- Witness for C7: the `hi` frame followed by a single trailing byte. -/
theorem c7_partial_second_prefix_witness :
    parseResult (fun bs => if bs = [104, 105] then some ("hi") else none)
        (mkFrame [104, 105] ++ [0]) = some (["hi"]) ∧
    chunkToUtf8String (fun bs => if bs = [104, 105] then some ("hi") else none)
        (fun _ => none) (mkFrame [104, 105] ++ [0]) = "hi" :=
  c7_partial_second_prefix _ _ _ _ _ (by decide) (by decide) (by decide) (by decide)

/-! ### Claim C9 -/

/-- Claim C9: for every chunk from which at least one frame is successfully
extracted and decoded, the compression fallback is never invoked — the result
is the join of the decoded pieces and is independent of the decompressor,
even when every decoded piece is the empty string; only a frame count of zero
or a decode error triggers the fallback, never empty output text. -/
theorem c9_nonempty_results_never_fallback (decode inflate inflate' : List Nat → Option String)
    (chunk : List Nat) (l : List String)
    (hres : parseResult decode chunk = some l) (hne : l ≠ []) :
    chunkToUtf8String decode inflate chunk = String.join l ∧
    chunkToUtf8String decode inflate chunk = chunkToUtf8String decode inflate' chunk := by
  have hemp : l.isEmpty = false := by simpa [List.isEmpty_iff] using hne
  constructor <;> simp [chunkToUtf8String, hres, hemp]

/-- Witness for C9: a single frame with empty payload decoded to the empty
string; the overall result is empty, yet no fallback runs — the result does
not change when the decompressor does. -/
theorem c9_nonempty_results_never_fallback_witness :
    chunkToUtf8String (fun _ => some ("")) (fun _ => some ("A")) (mkFrame []) =
      String.join [""] ∧
    chunkToUtf8String (fun _ => some ("")) (fun _ => some ("A")) (mkFrame []) =
      chunkToUtf8String (fun _ => some ("")) (fun _ => none) (mkFrame []) :=
  c9_nonempty_results_never_fallback _ _ _ _ [""]
    (by
      rw [parseResult_eq]
      have h := splitFrames_frame_cons [] [] (by simp) (by norm_num)
      simp only [List.append_nil] at h
      rw [h, splitFrames_nil]
      simp [decodeAll])
    (by simp)

/-! ### Claim C10 -/

/-- Claim C10: the per-chunk decode entry point is deterministic — two
invocations on equal input bytes return equal text. In this embedding
`chunkToUtf8String` takes no randomness or ambient state, only the chunk and
the two deterministic external collaborators, unlike the encode path
(`stringToHex` below), which consumes a stream of fresh identifiers. -/
theorem c10_decode_deterministic (decode inflate : List Nat → Option String)
    (c c' : List Nat) (h : c = c') :
    chunkToUtf8String decode inflate c = chunkToUtf8String decode inflate c' := by
  rw [h]

/-- Witness for C10 at a concrete chunk. -/
theorem c10_decode_deterministic_witness :
    chunkToUtf8String (fun _ => none) (fun _ => none) [7, 7] =
      chunkToUtf8String (fun _ => none) (fun _ => none) [7, 7] :=
  c10_decode_deterministic _ _ [7, 7] [7, 7] rfl

/-! ### Claim C5 -/

/-- Claim C5: `gunzip` skips exactly the first 5 bytes — its result depends
only on the chunk from byte 5 on — and applies the (external) deflate-family
decompression to the remainder; when decompression fails it returns empty
text, and it never throws (the embedding is a total function resolving both
callback branches). -/
theorem c5_gunzip_skip5_fail_empty (inflate : List Nat → Option String)
    (chunk c1 c2 : List Nat) :
    (List.drop 5 c1 = List.drop 5 c2 → gunzip inflate c1 = gunzip inflate c2) ∧
    (inflate (List.drop 5 chunk) = none → gunzip inflate chunk = "") := by
  constructor
  · intro h
    rw [gunzip, gunzip, h]
  · intro h
    rw [gunzip, h]

/-- Witness for C5: two chunks differing only in their first 5 bytes, under a
decompressor that always fails. -/
theorem c5_gunzip_skip5_fail_empty_witness :
    (gunzip (fun _ => none) [1, 2, 3, 4, 5, 6, 7] =
      gunzip (fun _ => none) [9, 9, 9, 9, 9, 6, 7]) ∧
    gunzip (fun _ => none) [1, 2, 3, 4, 5, 6, 7] = "" :=
  ⟨(c5_gunzip_skip5_fail_empty (fun _ => none) [] [1, 2, 3, 4, 5, 6, 7]
      [9, 9, 9, 9, 9, 6, 7]).1 rfl,
    (c5_gunzip_skip5_fail_empty (fun _ => none) [1, 2, 3, 4, 5, 6, 7] [] []).2 rfl⟩

/-! ### The sentinel pattern: soundness and completeness of the matcher -/

theorem listStartsWith_iff (pat : List Char) : ∀ s : List Char,
    listStartsWith pat s = true ↔ ∃ r, s = pat ++ r := by
  induction pat with
  | nil => intro s; simp [listStartsWith]
  | cons p ps ih =>
    intro s
    cases s with
    | nil =>
      simp [listStartsWith]
    | cons c cs =>
      simp only [listStartsWith, Bool.and_eq_true, beq_iff_eq, ih, List.cons_append,
        List.cons.injEq]
      constructor
      · rintro ⟨rfl, r, rfl⟩
        exact ⟨r, rfl, rfl⟩
      · rintro ⟨r, rfl, rfl⟩
        exact ⟨rfl, r, rfl⟩

theorem dropAfterFirst_eq_pos (pat s : List Char) (h : listStartsWith pat s = true) :
    dropAfterFirst pat s = some (s.drop pat.length) := by
  rw [dropAfterFirst.eq_def, if_pos h]

theorem dropAfterFirst_eq_neg_nil (pat : List Char)
    (h : ¬ listStartsWith pat [] = true) : dropAfterFirst pat [] = none := by
  rw [dropAfterFirst.eq_def, if_neg h]

theorem dropAfterFirst_eq_neg_cons (pat : List Char) (c : Char) (cs : List Char)
    (h : ¬ listStartsWith pat (c :: cs) = true) :
    dropAfterFirst pat (c :: cs) = dropAfterFirst pat cs := by
  rw [dropAfterFirst.eq_def, if_neg h]

theorem dropAfterFirst_sound (pat : List Char) : ∀ s r : List Char,
    dropAfterFirst pat s = some r → ∃ a, s = a ++ pat ++ r := by
  intro s
  induction s using dropAfterFirst.induct pat with
  | case1 s hsw =>
    intro r hr
    rw [dropAfterFirst_eq_pos pat s hsw] at hr
    obtain ⟨rr, rfl⟩ := (listStartsWith_iff pat s).mp hsw
    rw [List.drop_left, Option.some.injEq] at hr
    exact ⟨[], by rw [← hr]; simp⟩
  | case2 hsw =>
    intro r hr
    rw [dropAfterFirst_eq_neg_nil pat hsw] at hr
    exact absurd hr (by simp)
  | case3 c cs hsw ih =>
    intro r hr
    rw [dropAfterFirst_eq_neg_cons pat c cs hsw] at hr
    obtain ⟨a, ha⟩ := ih r hr
    exact ⟨c :: a, by simp [ha]⟩

theorem dropAfterFirst_complete (pat : List Char) : ∀ a b : List Char,
    ∃ r, dropAfterFirst pat (a ++ pat ++ b) = some r ∧ b <:+ r := by
  intro a
  induction a with
  | nil =>
    intro b
    have hsw : listStartsWith pat (pat ++ b) = true :=
      (listStartsWith_iff pat (pat ++ b)).mpr ⟨b, rfl⟩
    refine ⟨b, ?_, List.suffix_refl b⟩
    simp only [List.nil_append]
    rw [dropAfterFirst_eq_pos pat (pat ++ b) hsw, List.drop_left]
  | cons c a ih =>
    intro b
    by_cases hsw : listStartsWith pat (c :: (a ++ pat ++ b)) = true
    · refine ⟨(c :: (a ++ pat ++ b)).drop pat.length, ?_, ?_⟩
      · simp only [List.cons_append]
        rw [dropAfterFirst_eq_pos pat _ hsw]
      · have h1 : b <:+ c :: (a ++ pat ++ b) := ⟨c :: (a ++ pat), by simp⟩
        have h2 : (c :: (a ++ pat ++ b)).drop pat.length <:+ c :: (a ++ pat ++ b) :=
          List.drop_suffix _ _
        rcases List.suffix_or_suffix_of_suffix h1 h2 with h | h
        · exact h
        · have heq : (c :: (a ++ pat ++ b)).drop pat.length = b := by
            apply h.eq_of_length
            have hlb := h.length_le
            simp only [List.length_drop, List.length_cons, List.length_append] at hlb ⊢
            omega
          rw [heq]
    · obtain ⟨r, hr, hsuf⟩ := ih b
      refine ⟨r, ?_, hsuf⟩
      simp only [List.cons_append]
      rw [dropAfterFirst_eq_neg_cons pat c _ (by simpa using hsw)]
      exact hr

theorem dropAfterFirst_suffix_mono (pat : List Char) {b r rb : List Char}
    (hb : dropAfterFirst pat b = some rb) (hsuf : b <:+ r) :
    ∃ rr, dropAfterFirst pat r = some rr ∧ rb <:+ rr := by
  obtain ⟨a, ha⟩ := dropAfterFirst_sound pat b rb hb
  obtain ⟨x, hx⟩ := hsuf
  have hr : r = (x ++ a) ++ pat ++ rb := by
    rw [← hx, ha]
    simp
  rw [hr]
  exact dropAfterFirst_complete pat (x ++ a) rb

/-- The shape of a string containing a complete system-delimiter block followed
by a complete user-delimiter block, as matched by the dot-all regex of
utils.js line 10. -/
def sentinelSplit (l : List Char) : Prop :=
  ∃ a b c d e, l = a ++ beginSystemChars ++ b ++ endSystemChars ++ c ++
    beginUserChars ++ d ++ endUserChars ++ e

theorem sentinelTest_iff (t : String) : sentinelTest t = true ↔ sentinelSplit t.data := by
  constructor
  · intro h
    rw [sentinelTest] at h
    obtain ⟨r4, h4⟩ := Option.isSome_iff_exists.mp h
    simp only [Option.bind_eq_some] at h4
    obtain ⟨r3, ⟨r2, ⟨r1, h1, h2⟩, h3⟩, h4⟩ := h4
    obtain ⟨a1, ha1⟩ := dropAfterFirst_sound _ _ _ h1
    obtain ⟨a2, ha2⟩ := dropAfterFirst_sound _ _ _ h2
    obtain ⟨a3, ha3⟩ := dropAfterFirst_sound _ _ _ h3
    obtain ⟨a4, ha4⟩ := dropAfterFirst_sound _ _ _ h4
    refine ⟨a1, a2, a3, a4, r4, ?_⟩
    rw [ha1, ha2, ha3, ha4]
    simp
  · rintro ⟨a, b, c, d, e, hsplit⟩
    have hsplit' : t.data = a ++ beginSystemChars ++
        (b ++ endSystemChars ++ (c ++ beginUserChars ++ (d ++ endUserChars ++ e))) := by
      rw [hsplit]
      simp [List.append_assoc]
    obtain ⟨r1, h1, hs1⟩ := dropAfterFirst_complete beginSystemChars a
      (b ++ endSystemChars ++ (c ++ beginUserChars ++ (d ++ endUserChars ++ e)))
    obtain ⟨r2x, h2x, hs2x⟩ := dropAfterFirst_complete endSystemChars b
      (c ++ beginUserChars ++ (d ++ endUserChars ++ e))
    obtain ⟨r2, h2, hs2⟩ := dropAfterFirst_suffix_mono endSystemChars h2x hs1
    obtain ⟨r3x, h3x, hs3x⟩ := dropAfterFirst_complete beginUserChars c
      (d ++ endUserChars ++ e)
    obtain ⟨r3, h3, hs3⟩ := dropAfterFirst_suffix_mono beginUserChars h3x
      (hs2x.trans hs2)
    obtain ⟨r4x, h4x, hs4x⟩ := dropAfterFirst_complete endUserChars d e
    obtain ⟨r4, h4, hs4⟩ := dropAfterFirst_suffix_mono endUserChars h4x
      (hs3x.trans hs3)
    rw [sentinelTest, hsplit']
    simp only [List.append_assoc] at h1
    simp [h1, h2, h3, h4]

/-! ### Claim C6 -/

/-- Claim C6: for every successfully decompressed text, if it contains a
complete system-delimiter block followed by a complete user-delimiter block
(the dot-all regex of utils.js line 10), `gunzip` returns the empty string;
otherwise it returns the decompressed text verbatim. -/
theorem c6_sentinel_filter (inflate : List Nat → Option String) (chunk : List Nat)
    (t : String) (hinf : inflate (List.drop 5 chunk) = some t) :
    (sentinelSplit t.data → gunzip inflate chunk = "") ∧
    (¬ sentinelSplit t.data → gunzip inflate chunk = t) := by
  constructor
  · intro hs
    simp only [gunzip, hinf]
    rw [if_pos ((sentinelTest_iff t).mpr hs)]
  · intro hns
    simp only [gunzip, hinf]
    rw [if_neg (fun h => hns ((sentinelTest_iff t).mp h))]

/-- Witness for C6 at the exact sentinel text named by the spec: the
decompressed text is suppressed to the empty string. -/
theorem c6_sentinel_filter_witness :
    gunzip (fun _ => some ("<|BEGIN_SYSTEM|>x<|END_SYSTEM|>y<|BEGIN_USER|>z<|END_USER|>"))
      [] = "" :=
  (c6_sentinel_filter _ [] _ rfl).1
    ⟨[], "x".data, "y".data, "z".data, [], by decide⟩

/-! ### Parsing back the frame produced by `frameEncode` -/

theorem hexCharVal_lt16 {c : Char} (_h : isHexDigitChar c = true) : hexCharVal c < 16 := by
  unfold hexCharVal
  split_ifs with h1 h2 h3 <;>
    simp only [Bool.and_eq_true, decide_eq_true_eq] at * <;> omega

theorem hexToBytes_lt : ∀ cs : List Char, ∀ b ∈ hexToBytes cs, b < 256
  | [] => by simp [hexToBytes]
  | [c] => by simp [hexToBytes]
  | c1 :: c2 :: rest => by
    intro b hb
    by_cases hv : (isHexDigitChar c1 && isHexDigitChar c2) = true
    · obtain ⟨h1, h2⟩ := (Bool.and_eq_true _ _).mp hv
      simp only [hexToBytes, hv, if_true] at hb
      rcases List.mem_cons.mp hb with rfl | hb
      · have hv1 := hexCharVal_lt16 h1
        have hv2 := hexCharVal_lt16 h2
        omega
      · exact hexToBytes_lt rest b hb
    · simp [hexToBytes, hv] at hb

theorem hexToBytes_length_even : ∀ cs : List Char,
    (∀ c ∈ cs, isHexDigitChar c = true) → (hexToBytes cs).length = cs.length / 2
  | [] => by simp [hexToBytes]
  | [c] => by simp [hexToBytes]
  | c1 :: c2 :: rest => by
    intro hval
    have h1 := hval c1 (by simp)
    have h2 := hval c2 (by simp)
    simp only [hexToBytes, h1, h2, Bool.and_self, if_true, List.length_cons]
    rw [hexToBytes_length_even rest (fun c hc => hval c (by simp [hc]))]
    omega

theorem hexToBytes_append : ∀ xs : List Char,
    (∀ c ∈ xs, isHexDigitChar c = true) → xs.length % 2 = 0 → ∀ ys : List Char,
    hexToBytes (xs ++ ys) = hexToBytes xs ++ hexToBytes ys
  | [] => by intro _ _ ys; rfl
  | [c] => by intro _ hev; simp at hev
  | c1 :: c2 :: rest => by
    intro hval hev ys
    have h1 := hval c1 (by simp)
    have h2 := hval c2 (by simp)
    simp only [List.cons_append, hexToBytes, h1, h2, Bool.and_self, if_true,
      List.append_eq]
    rw [hexToBytes_append rest (fun c hc => hval c (by simp [hc]))
      (by simp only [List.length_cons] at hev; omega) ys]

theorem foldl256_hexToBytes : ∀ cs : List Char,
    (∀ c ∈ cs, isHexDigitChar c = true) → cs.length % 2 = 0 → ∀ a : Nat,
    (hexToBytes cs).foldl (fun a b => 256 * a + b) a =
      cs.foldl (fun a c => 16 * a + hexCharVal c) a
  | [] => by intro _ _ a; rfl
  | [c] => by intro _ hev; simp at hev
  | c1 :: c2 :: rest => by
    intro hval hev a
    have h1 := hval c1 (by simp)
    have h2 := hval c2 (by simp)
    simp only [hexToBytes, h1, h2, Bool.and_self, if_true, List.foldl_cons]
    rw [foldl256_hexToBytes rest (fun c hc => hval c (by simp [hc]))
      (by simp only [List.length_cons] at hev; omega)]
    congr 1
    omega

theorem mem_natHexDigitsU_valid (n : Nat) :
    ∀ c ∈ natHexDigitsU n, isHexDigitChar c = true := by
  induction n using natHexDigitsU.induct with
  | case1 => simp [natHexDigitsU]
  | case2 n ih =>
    intro c hc
    rw [natHexDigitsU] at hc
    rcases List.mem_append.mp hc with hc | hc
    · exact ih c hc
    · simp only [List.mem_singleton] at hc
      subst hc
      exact isHexDigitChar_hexDigitCharU (Nat.mod_lt _ (by omega))

theorem mem_padU_valid (n : Nat) :
    ∀ c ∈ padStartZeros 10 (natToHexCharsU n), isHexDigitChar c = true := by
  intro c hc
  rcases List.mem_append.mp hc with hc | hc
  · have : c = '0' := List.eq_of_mem_replicate hc
    subst this
    decide
  · by_cases h0 : n = 0
    · subst h0
      simp [natToHexCharsU] at hc
      subst hc
      decide
    · rw [natToHexCharsU, if_neg h0] at hc
      exact mem_natHexDigitsU_valid n c hc

theorem natHexDigitsU_length_le : ∀ k n : Nat, n < 16 ^ k → (natHexDigitsU n).length ≤ k := by
  intro k
  induction k with
  | zero =>
    intro n h
    have : n = 0 := by simpa using h
    subst this
    simp [natHexDigitsU]
  | succ k ih =>
    intro n h
    cases n with
    | zero => simp [natHexDigitsU]
    | succ m =>
      rw [natHexDigitsU, List.length_append]
      have hdiv : (m + 1) / 16 < 16 ^ k := by
        have h16 : (16 : Nat) ^ (k + 1) = 16 * 16 ^ k := by ring
        rw [h16] at h
        exact Nat.div_lt_of_lt_mul h
      have := ih _ hdiv
      simp only [List.length_cons, List.length_nil]
      omega

theorem natToHexCharsU_length_le {n : Nat} (h : n < 2 ^ 40) :
    (natToHexCharsU n).length ≤ 10 := by
  by_cases h0 : n = 0
  · subst h0
    simp [natToHexCharsU]
  · rw [natToHexCharsU, if_neg h0]
    refine natHexDigitsU_length_le 10 n ?_
    rw [show (16 : Nat) ^ 10 = 2 ^ 40 by norm_num]
    exact h

theorem padStartZeros_length {k : Nat} {cs : List Char} (h : cs.length ≤ k) :
    (padStartZeros k cs).length = k := by
  simp only [padStartZeros, List.length_append, List.length_replicate]
  omega

theorem foldl16_zeros (m : Nat) :
    (List.replicate m '0').foldl (fun a c => 16 * a + hexCharVal c) 0 = 0 := by
  induction m with
  | zero => rfl
  | succ m ih =>
    simp only [List.replicate_succ, List.foldl_cons]
    rw [show 16 * 0 + hexCharVal '0' = 0 from by decide]
    exact ih

theorem foldl16_natHexDigitsU (n : Nat) :
    (natHexDigitsU n).foldl (fun a c => 16 * a + hexCharVal c) 0 = n := by
  induction n using natHexDigitsU.induct with
  | case1 => simp [natHexDigitsU]
  | case2 n ih =>
    rw [natHexDigitsU, List.foldl_append, ih]
    simp only [List.foldl_cons, List.foldl_nil,
      hexCharVal_hexDigitCharU (Nat.mod_lt (n + 1) (by omega))]
    omega

theorem foldl16_padU (k n : Nat) :
    (padStartZeros k (natToHexCharsU n)).foldl (fun a c => 16 * a + hexCharVal c) 0 = n := by
  rw [padStartZeros, List.foldl_append, foldl16_zeros]
  by_cases h0 : n = 0
  · subst h0
    decide
  · rw [natToHexCharsU, if_neg h0]
    exact foldl16_natHexDigitsU n

theorem frameEncode_decomp (p : List Nat) (hb : ∀ b ∈ p, b < 256)
    (hl : p.length < 2 ^ 40) :
    frameEncode p =
      hexToBytes (padStartZeros 10 (natToHexCharsU p.length)) ++ p := by
  unfold frameEncode
  rw [listUpper_append, listUpper_padStartZeros, listUpper_natToHexChars,
    listUpper_bytesToHexL hb,
    hexToBytes_append _ (mem_padU_valid p.length)
      (by rw [padStartZeros_length (natToHexCharsU_length_le hl)]),
    hexToBytes_bytesToHexU hb]

theorem splitFrames_frameEncode (p : List Nat) (hb : ∀ b ∈ p, b < 256)
    (hl : p.length < 2 ^ 40) :
    splitFrames (bytesToHexL (frameEncode p)) = [p] := by
  rw [frameEncode_decomp p hb hl, bytesToHexL_append]
  have hlenH : (hexToBytes (padStartZeros 10 (natToHexCharsU p.length))).length = 5 := by
    rw [hexToBytes_length_even _ (mem_padU_valid p.length),
      padStartZeros_length (natToHexCharsU_length_le hl)]
  have hH : (bytesToHexL (hexToBytes (padStartZeros 10 (natToHexCharsU p.length)))).length
      = 10 := by
    rw [bytesToHexL_length, hlenH]
  have hne : hexToBytes (padStartZeros 10 (natToHexCharsU p.length)) ≠ [] := by
    intro hcontra
    rw [hcontra] at hlenH
    simp at hlenH
  have hpi : parseIntHex
      (bytesToHexL (hexToBytes (padStartZeros 10 (natToHexCharsU p.length)))) =
      some p.length := by
    rw [parseIntHex_bytesToHexL hne (hexToBytes_lt _)]
    congr 1
    rw [beVal, foldl256_hexToBytes _ (mem_padU_valid p.length)
      (by rw [padStartZeros_length (natToHexCharsU_length_le hl)]),
      foldl16_padU]
  rw [show bytesToHexL p = bytesToHexL p ++ ([] : List Char) from
    (List.append_nil _).symm]
  rw [splitFrames_header_cons _ p [] hH hpi hb, splitFrames_nil]

/-! ### `stringToHex` (utils.js lines 18–59) -/

/-- An incoming OpenAI-style message: a role string and text content. -/
structure InMsg where
  role : String
  content : String

/-- A formatted message (utils.js lines 20–24): the role mapped to 1 for
`user` and 2 for anything else, the content kept, and a fresh identifier. -/
structure FMsg where
  role : Nat
  content : String
  message_id : String

/-- The nested `instructions` object (utils.js lines 29–31). -/
structure Instructions where
  instruction : String

/-- The nested `model` object (utils.js lines 33–36). -/
structure ModelDesc where
  name : String
  empty : String

/-- The message object built by `stringToHex` (utils.js lines 27–40). -/
structure ChatMessageObj where
  messages : List FMsg
  instructions : Instructions
  projectPath : String
  model : ModelDesc
  requestId : String
  summary : String
  conversationId : String

/-- utils.js lines 20–24: format the incoming messages, consuming one fresh
identifier per message, in order. -/
def formatMsgs (uuids : Nat → String) : Nat → List InMsg → List FMsg
  | _, [] => []
  | i, m :: rest =>
    ⟨if m.role = "user" then 1 else 2, m.content, uuids i⟩ :: formatMsgs uuids (i + 1) rest

/-- utils.js lines 20–40: the message object; `uuidv4()` is modelled as an
injected identifier stream `uuids`, consumed in call order (one per message,
then the request id, then the conversation id). -/
def buildMessage (uuids : Nat → String) (messages : List InMsg) (modelName : String) :
    ChatMessageObj where
  messages := formatMsgs uuids 0 messages
  instructions := ⟨"Always respond in 中文"⟩
  projectPath := "/path/to/project"
  model := ⟨modelName, ""⟩
  requestId := uuids messages.length
  summary := ""
  conversationId := uuids (messages.length + 1)

/-- `stringToHex` (utils.js lines 18–59). `verify` and `pbEncode` stand for
`$root.ChatMessage.verify` and `$root.ChatMessage.encode(...).finish()` from
the absent `message.js`; a `some errMsg` result of `verify` models the thrown
`Error(errMsg)`, embedded as `Except.error errMsg`. Validation runs before
serialization; only on success is the schema encoding framed. -/
def stringToHex (verify : ChatMessageObj → Option String)
    (pbEncode : ChatMessageObj → List Nat) (uuids : Nat → String)
    (messages : List InMsg) (modelName : String) : Except String (List Nat) :=
  let message := buildMessage uuids messages modelName
  match verify message with
  | some errMsg => Except.error errMsg
  | none => Except.ok (frameEncode (pbEncode message))

/-! ### Claim C8 -/

/-- Claim C8: for every request object that fails schema validation, Encode
raises an error carrying the diagnostic message of the schema engine and
produces no output at all — the result is `Except.error` with exactly that
message, and it does not depend on the serializer, since validation happens
before any serialization. `verify` is modelled from the spec: it lives in the
absent `message.js`; the control flow around it is utils.js lines 43–44. -/
theorem c8_validation_failure (verify : ChatMessageObj → Option String)
    (pbEncode pbEncode' : ChatMessageObj → List Nat) (uuids : Nat → String)
    (messages : List InMsg) (modelName : String) (e : String)
    (hv : verify (buildMessage uuids messages modelName) = some e) :
    stringToHex verify pbEncode uuids messages modelName = Except.error e ∧
    stringToHex verify pbEncode uuids messages modelName =
      stringToHex verify pbEncode' uuids messages modelName := by
  constructor <;> simp [stringToHex, hv]

/-- Witness for C8: a validator that always reports a missing field. -/
theorem c8_validation_failure_witness :
    stringToHex (fun _ => some ("messages: array expected")) (fun _ => [])
        (fun _ => "id") [⟨"user", "hello"⟩] "gpt-4" =
      Except.error ("messages: array expected") ∧
    stringToHex (fun _ => some ("messages: array expected")) (fun _ => [])
        (fun _ => "id") [⟨"user", "hello"⟩] "gpt-4" =
      stringToHex (fun _ => some ("messages: array expected")) (fun _ => [0])
        (fun _ => "id") [⟨"user", "hello"⟩] "gpt-4" :=
  c8_validation_failure _ _ _ _ _ _ _ rfl

/-! ### Claim C4: the schema codec, modelled from the spec

Modelled from the spec: the schema codec of the absent `message.js`
(`ChatMessage.encode` on the request side, `ResMessage.decode` on the
response side). The spec fixes only its interface:  Encode(request) is the
exact binary serialization of the schema-conformant message object (spec
4.1), and Decode(bytes) parses a payload into a response object and extracts
its text field, every other field being ignored (spec 4.1); spec 8 requires
schema round-trip fidelity between the two. The model below serializes every
field of the message object length-prefixed (4-byte big-endian lengths, one
4-byte code point per character) and the decoder inverts it, extracting as
the borne text the concatenated message contents. -/

/-- 4-byte big-endian encoding of a 32-bit value. -/
def encNat32 (n : Nat) : List Nat := bytesOfBE 4 n

/-- Read back a 4-byte big-endian value. -/
def decNat32 : List Nat → Option (Nat × List Nat)
  | b0 :: b1 :: b2 :: b3 :: rest => some (((b0 * 256 + b1) * 256 + b2) * 256 + b3, rest)
  | _ => none

/-- One character as its 4-byte big-endian code point. -/
def encChar4 (c : Char) : List Nat := bytesOfBE 4 c.toNat

def encCharList : List Char → List Nat
  | [] => []
  | c :: cs => encChar4 c ++ encCharList cs

def decCharList : Nat → List Nat → Option (List Char × List Nat)
  | 0, bs => some ([], bs)
  | k + 1, bs =>
    match decNat32 bs with
    | none => none
    | some (n, bs1) =>
      match decCharList k bs1 with
      | none => none
      | some (cs, bs2) => some (Char.ofNat n :: cs, bs2)

/-- A string field: a 4-byte length, then 4 bytes per character. -/
def encString (s : String) : List Nat := encNat32 s.length ++ encCharList s.data

def decString (bs : List Nat) : Option (String × List Nat) :=
  match decNat32 bs with
  | none => none
  | some (n, bs1) =>
    match decCharList n bs1 with
    | none => none
    | some (cs, bs2) => some (String.mk cs, bs2)

/-- One formatted message: role, then content, then identifier. -/
def encFMsg (m : FMsg) : List Nat :=
  encNat32 m.role ++ encString m.content ++ encString m.message_id

def decFMsg (bs : List Nat) : Option (FMsg × List Nat) :=
  match decNat32 bs with
  | none => none
  | some (role, bs1) =>
    match decString bs1 with
    | none => none
    | some (content, bs2) =>
      match decString bs2 with
      | none => none
      | some (mid, bs3) => some (⟨role, content, mid⟩, bs3)

def encFMsgList : List FMsg → List Nat
  | [] => []
  | m :: ms => encFMsg m ++ encFMsgList ms

def decFMsgList : Nat → List Nat → Option (List FMsg × List Nat)
  | 0, bs => some ([], bs)
  | k + 1, bs =>
    match decFMsg bs with
    | none => none
    | some (m, bs1) =>
      match decFMsgList k bs1 with
      | none => none
      | some (ms, bs2) => some (m :: ms, bs2)

/-- Modelled from the spec: `ChatMessage.encode(...).finish()` — the exact
binary serialization of the message object, every field in declaration
order. -/
def specEncodeRequest (m : ChatMessageObj) : List Nat :=
  encNat32 m.messages.length ++ encFMsgList m.messages ++
    encString m.instructions.instruction ++ encString m.projectPath ++
    encString m.model.name ++ encString m.model.empty ++
    encString m.requestId ++ encString m.summary ++ encString m.conversationId

/-- The structural inverse of `specEncodeRequest` (trailing bytes ignored). -/
def specDecodeRequest (bs : List Nat) : Option ChatMessageObj :=
  match decNat32 bs with
  | none => none
  | some (n, bs1) =>
    match decFMsgList n bs1 with
    | none => none
    | some (msgs, bs2) =>
      match decString bs2 with
      | none => none
      | some (instr, bs3) =>
        match decString bs3 with
        | none => none
        | some (ppath, bs4) =>
          match decString bs4 with
          | none => none
          | some (mname, bs5) =>
            match decString bs5 with
            | none => none
            | some (mempty, bs6) =>
              match decString bs6 with
              | none => none
              | some (reqId, bs7) =>
                match decString bs7 with
                | none => none
                | some (summ, bs8) =>
                  match decString bs8 with
                  | none => none
                  | some (convId, _) =>
                    some ⟨msgs, ⟨instr⟩, ppath, ⟨mname, mempty⟩, reqId, summ, convId⟩

/-- Modelled from the spec: the response object — a text-bearing record whose
only field the proxy uses is the text. -/
structure ResObj where
  msg : String

/-- The text borne by a request payload: the concatenated message contents. -/
def requestText (m : ChatMessageObj) : String :=
  String.join (m.messages.map (fun x => x.content))

/-- Modelled from the spec: `ResMessage.decode` — parse the payload and
extract the text field it bears, ignoring the remaining fields (spec 4.1). -/
def specDecodePayload (bs : List Nat) : Option ResObj :=
  (specDecodeRequest bs).map (fun m => ⟨requestText m⟩)

/-- Size constraints under which the 4-byte length fields are faithful: a
valid chat request (spec 3 also requires a non-empty message sequence). -/
def FMsg.SizesOk (m : FMsg) : Prop :=
  m.role < 2 ^ 32 ∧ m.content.length < 2 ^ 32 ∧ m.message_id.length < 2 ^ 32

def ChatMessageObj.SizesOk (m : ChatMessageObj) : Prop :=
  m.messages.length < 2 ^ 32 ∧ (∀ x ∈ m.messages, x.SizesOk) ∧
    m.instructions.instruction.length < 2 ^ 32 ∧ m.projectPath.length < 2 ^ 32 ∧
    m.model.name.length < 2 ^ 32 ∧ m.model.empty.length < 2 ^ 32 ∧
    m.requestId.length < 2 ^ 32 ∧ m.summary.length < 2 ^ 32 ∧
    m.conversationId.length < 2 ^ 32

theorem bytesOfBE4_expand (n : Nat) :
    bytesOfBE 4 n = [n / 2 ^ 24 % 256, n / 2 ^ 16 % 256, n / 2 ^ 8 % 256, n % 256] := by
  show bytesOfBE 3 (n / 256) ++ [n % 256] = _
  show (bytesOfBE 2 (n / 256 / 256) ++ [n / 256 % 256]) ++ [n % 256] = _
  show ((bytesOfBE 1 (n / 256 / 256 / 256) ++ [n / 256 / 256 % 256]) ++
    [n / 256 % 256]) ++ [n % 256] = _
  show ((([] ++ [n / 256 / 256 / 256 % 256] : List Nat) ++ [n / 256 / 256 % 256]) ++
    [n / 256 % 256]) ++ [n % 256] = _
  simp only [List.nil_append, List.cons_append, List.singleton_append]
  norm_num [Nat.div_div_eq_div_mul]

theorem decNat32_encNat32 {n : Nat} (h : n < 2 ^ 32) (rest : List Nat) :
    decNat32 (encNat32 n ++ rest) = some (n, rest) := by
  rw [encNat32, bytesOfBE4_expand]
  simp only [List.cons_append, List.nil_append, decNat32]
  have harith : ((n / 2 ^ 24 % 256 * 256 + n / 2 ^ 16 % 256) * 256 +
      n / 2 ^ 8 % 256) * 256 + n % 256 = n := by omega
  rw [harith]

theorem decCharList_encCharList : ∀ (cs : List Char) (rest : List Nat),
    decCharList cs.length (encCharList cs ++ rest) = some (cs, rest)
  | [], rest => by simp [encCharList, decCharList]
  | c :: cs, rest => by
    have hc : c.toNat < 2 ^ 32 := by
      have := c.val.toNat_lt
      simpa [Char.toNat] using this
    simp only [encCharList, List.length_cons, List.append_assoc]
    rw [show encChar4 c = encNat32 c.toNat from rfl]
    simp [decCharList, decNat32_encNat32 hc,
      decCharList_encCharList cs rest, Char.ofNat_toNat]

theorem decString_encString {s : String} (h : s.length < 2 ^ 32) (rest : List Nat) :
    decString (encString s ++ rest) = some (s, rest) := by
  rw [encString, List.append_assoc]
  have hdata : decCharList s.length (encCharList s.data ++ rest) =
      some (s.data, rest) := by
    rw [show s.length = s.data.length from rfl]
    exact decCharList_encCharList s.data rest
  simp [decString, decNat32_encNat32 h, hdata]

theorem decFMsg_encFMsg {m : FMsg} (h : m.SizesOk) (rest : List Nat) :
    decFMsg (encFMsg m ++ rest) = some (m, rest) := by
  obtain ⟨h1, h2, h3⟩ := h
  simp only [encFMsg, List.append_assoc]
  simp [decFMsg, decNat32_encNat32 h1, decString_encString h2, decString_encString h3]

theorem decFMsgList_encFMsgList : ∀ (ms : List FMsg), (∀ x ∈ ms, x.SizesOk) →
    ∀ rest : List Nat, decFMsgList ms.length (encFMsgList ms ++ rest) = some (ms, rest)
  | [], _, rest => by simp [encFMsgList, decFMsgList]
  | x :: ms, h, rest => by
    simp only [encFMsgList, List.length_cons, List.append_assoc]
    simp [decFMsgList, decFMsg_encFMsg (h x (by simp)),
      decFMsgList_encFMsgList ms (fun y hy => h y (by simp [hy])) rest]

theorem decString_encString_nil {s : String} (h : s.length < 2 ^ 32) :
    decString (encString s) = some (s, []) := by
  rw [← List.append_nil (encString s)]
  exact decString_encString h []

theorem specDecodeRequest_encodeRequest {m : ChatMessageObj} (h : m.SizesOk) :
    specDecodeRequest (specEncodeRequest m) = some m := by
  obtain ⟨hn, hmsgs, hi, hp, hmn, hme, hr, hs, hc⟩ := h
  simp only [specEncodeRequest, List.append_assoc]
  simp [specDecodeRequest, decNat32_encNat32 hn,
    decFMsgList_encFMsgList m.messages hmsgs,
    decString_encString hi, decString_encString hp, decString_encString hmn,
    decString_encString hme, decString_encString hr, decString_encString hs,
    decString_encString_nil hc]

theorem encCharList_lt : ∀ cs : List Char, ∀ b ∈ encCharList cs, b < 256
  | [] => by simp [encCharList]
  | c :: cs => by
    intro b hb
    simp only [encCharList, List.mem_append] at hb
    rcases hb with hb | hb
    · exact bytesOfBE_lt 4 _ b hb
    · exact encCharList_lt cs b hb

theorem encString_lt (s : String) : ∀ b ∈ encString s, b < 256 := by
  intro b hb
  simp only [encString, List.mem_append] at hb
  rcases hb with hb | hb
  · exact bytesOfBE_lt 4 _ b hb
  · exact encCharList_lt s.data b hb

theorem encFMsg_lt (m : FMsg) : ∀ b ∈ encFMsg m, b < 256 := by
  intro b hb
  simp only [encFMsg, List.mem_append] at hb
  rcases hb with (hb | hb) | hb
  · exact bytesOfBE_lt 4 _ b hb
  · exact encString_lt _ b hb
  · exact encString_lt _ b hb

theorem encFMsgList_lt : ∀ ms : List FMsg, ∀ b ∈ encFMsgList ms, b < 256
  | [] => by simp [encFMsgList]
  | m :: ms => by
    intro b hb
    simp only [encFMsgList, List.mem_append] at hb
    rcases hb with hb | hb
    · exact encFMsg_lt m b hb
    · exact encFMsgList_lt ms b hb

theorem specEncodeRequest_lt (m : ChatMessageObj) :
    ∀ b ∈ specEncodeRequest m, b < 256 := by
  intro b hb
  simp only [specEncodeRequest, List.mem_append] at hb
  rcases hb with ((((((((hb | hb) | hb) | hb) | hb) | hb) | hb) | hb) | hb)
  · exact bytesOfBE_lt 4 _ b hb
  · exact encFMsgList_lt _ b hb
  · exact encString_lt _ b hb
  · exact encString_lt _ b hb
  · exact encString_lt _ b hb
  · exact encString_lt _ b hb
  · exact encString_lt _ b hb
  · exact encString_lt _ b hb
  · exact encString_lt _ b hb

/-- Claim C4: for every valid chat request, encoding it to a payload (before
length-prefix framing), then decoding that payload via the response decoder,
yields a text-bearing object whose fields match what the payload encodes —
schema round-trip fidelity between the encode-side and decode-side schemas.
The framing side is the code of utils.js: the frame built by `frameEncode`
parses back to exactly the one payload, and the full per-chunk decode of that
frame returns the borne text. The schema codec itself is modelled from the
spec (message.js is absent). -/
theorem c4_schema_roundtrip (m : ChatMessageObj) (hm : m.SizesOk)
    (_hne : m.messages ≠ []) (hlen : (specEncodeRequest m).length < 2 ^ 40)
    (inflate : List Nat → Option String) :
    splitFrames (bytesToHexL (frameEncode (specEncodeRequest m))) =
      [specEncodeRequest m] ∧
    specDecodeRequest (specEncodeRequest m) = some m ∧
    specDecodePayload (specEncodeRequest m) = some ⟨requestText m⟩ ∧
    chunkToUtf8String (fun bs => (specDecodePayload bs).map ResObj.msg) inflate
      (frameEncode (specEncodeRequest m)) = requestText m := by
  have h1 := splitFrames_frameEncode (specEncodeRequest m) (specEncodeRequest_lt m) hlen
  have h2 := specDecodeRequest_encodeRequest hm
  have h3 : specDecodePayload (specEncodeRequest m) = some ⟨requestText m⟩ := by
    rw [specDecodePayload, h2]
    rfl
  refine ⟨h1, h2, h3, ?_⟩
  have hres : parseResult (fun bs => (specDecodePayload bs).map ResObj.msg)
      (frameEncode (specEncodeRequest m)) = some [requestText m] := by
    rw [parseResult_eq, h1]
    simp [decodeAll, h3]
  simp [chunkToUtf8String, hres, String.join]

/-- A small concrete valid request for the C4 witness. -/
def c4Example : ChatMessageObj :=
  ⟨[⟨1, "hi", "id0"⟩], ⟨"inst"⟩, "/p", ⟨"gpt-4", ""⟩, "rid", "", "cid"⟩

set_option maxRecDepth 8000 in
/-- Witness for C4 at `c4Example`, with an inflate that always fails. -/
theorem c4_schema_roundtrip_witness :
    splitFrames (bytesToHexL (frameEncode (specEncodeRequest c4Example))) =
      [specEncodeRequest c4Example] ∧
    specDecodeRequest (specEncodeRequest c4Example) = some c4Example ∧
    specDecodePayload (specEncodeRequest c4Example) = some ⟨requestText c4Example⟩ ∧
    chunkToUtf8String (fun bs => (specDecodePayload bs).map ResObj.msg) (fun _ => none)
      (frameEncode (specEncodeRequest c4Example)) = requestText c4Example :=
  c4_schema_roundtrip c4Example
    (by unfold ChatMessageObj.SizesOk FMsg.SizesOk; decide)
    (by simp [c4Example]) (by decide) (fun _ => none)
